import Mathlib

/-!
Verification of the dependency-graph engine.

A shallow embedding of `backend/services/dependency_analyzer.py`
(class `DependencyAnalyzer`), together with proofs about it.

Conventions of the embedding:
* Python strings are Lean `String`s; all string manipulation is re-implemented
  by structural recursion over `List Char` so that every definition evaluates
  inside the kernel (`decide` / `rfl`).
* Python `pathlib.PurePosixPath` values are represented by their non-empty,
  non-`"."` segment lists; `renderPath` reproduces `str(path)` (the empty
  relative path prints as `"."`).
* Python dicts that are built by insertion are represented by association
  lists in insertion order; Python sets by lists up to membership.
* Reading a file from disk, parsing it with tree-sitter and extracting the
  raw import strings is an effectful front end that cannot be embedded; it is
  modelled by an `Except String (List String)` oracle per file (`.error` is a
  raised exception inside the `try:` block of `analyze_file_dependencies`,
  `.ok` the extracted raw-import list).
-/

namespace DependencyAnalyzer

/-! ## Character-level string helpers (kernel-computable) -/

/-- Split a character list at a separator character (semantics of Python
`str.split(sep)` for a one-character separator: `"" ↦ [""]`). -/
def splitCharAux (sep : Char) : List Char → List Char → List (List Char)
  | [], acc => [acc.reverse]
  | c :: cs, acc =>
    if c = sep then acc.reverse :: splitCharAux sep cs []
    else splitCharAux sep cs (c :: acc)

def splitChar (sep : Char) (s : String) : List String :=
  (splitCharAux sep s.toList []).map List.asString

/-- Whether the character `c` occurs in `s`. -/
def strContainsChar (s : String) (c : Char) : Bool :=
  s.toList.contains c

/-- Python `s.startswith(pre)`. -/
def strStartsWith (s pre : String) : Bool :=
  pre.toList.isPrefixOf s.toList

/-- Model of the `pathlib` segment list of a relative POSIX path string: split on `'/'`,
dropping empty and `"."` segments. -/
def splitSegs (s : String) : List String :=
  (splitChar '/' s).filter (fun t => !(t = "" || t = "."))

/-- Rendering `str(path)` for a segment list; `pathlib` prints the empty relative path
as `"."`. -/
def renderPath : List String → String
  | [] => "."
  | [s] => s
  | s :: rest => s ++ "/" ++ renderPath rest

/-- Model of `Path(p).name`: the last `'/'`-separated component. -/
def baseName (p : String) : String :=
  (splitChar '/' p).getLastD ""

/-- Index of the last `'.'` in a character list, if any. -/
def rfindDot : List Char → Option Nat
  | [] => none
  | c :: rest =>
    match rfindDot rest with
    | some i => some (i + 1)
    | none => if c = '.' then some 0 else none

/-- Model of `Path(p).suffix`: the extension of the last component, nonempty exactly
when the last dot sits strictly inside the name (`0 < i < len(name) - 1`). -/
def pathSuffix (p : String) : String :=
  let name := (baseName p).toList
  match rfindDot name with
  | some i => if 0 < i ∧ i + 1 < name.length then (name.drop i).asString else ""
  | none => ""

/-- ASCII-sufficient model of `str.lower()` applied characterwise. -/
def strToLower (s : String) : String :=
  (s.toList.map Char.toLower).asString

/-- Python `s.lstrip('./')`: drop every leading `'.'` or `'/'`. -/
def lstripDotSlash (s : String) : String :=
  (s.toList.dropWhile (fun c => c = '.' || c = '/')).asString

/-- Count of non-overlapping occurrences of `"../"` scanning left to right
(`s.count('../')`). -/
def countUpLevelsAux : List Char → Nat
  | '.' :: '.' :: '/' :: rest => countUpLevelsAux rest + 1
  | _ :: rest => countUpLevelsAux rest
  | [] => 0

def countUpLevels (s : String) : Nat := countUpLevelsAux s.toList

/-- Python `s.replace('../', '', n)`: delete the first `n` non-overlapping
occurrences of `"../"`. -/
def stripUpLevelsAux : Nat → List Char → List Char
  | 0, cs => cs
  | _ + 1, [] => []
  | n + 1, '.' :: '.' :: '/' :: rest => stripUpLevelsAux n rest
  | n + 1, c :: rest => c :: stripUpLevelsAux (n + 1) rest

def stripUpLevels (n : Nat) (s : String) : String :=
  (stripUpLevelsAux n s.toList).asString

/-- Python `s.replace('.', '/')`. -/
def dotsToSlashes (s : String) : String :=
  (s.toList.map (fun c => if c = '.' then '/' else c)).asString

/-- Apply `Path.parent` `n` times to a directory segment list (the parent of
the root `"."` is `"."` itself, i.e. of `[]` is `[]`). -/
def dropLastN (segs : List String) : Nat → List String
  | 0 => segs
  | n + 1 => (dropLastN segs n).dropLast

/-! ## `_detect_language` -/

/-- Model of `_detect_language`: map the lower-cased file extension through `lang_map`,
defaulting to `"unknown"`. -/
def detect_language (file_path : String) : String :=
  let ext := strToLower (pathSuffix file_path)
  if ext = ".py" then "python"
  else if ext = ".js" then "javascript"
  else if ext = ".jsx" then "javascript"
  else if ext = ".ts" then "typescript"
  else if ext = ".tsx" then "typescript"
  else "unknown"

/-- The keys of `self.parsers`. -/
def parserLanguages : List String := ["python", "javascript", "typescript"]

/-! ## `_resolve_import_to_file` -/

/-- The extension trial list of the relative branch
(`extensions = ['', '.ts', '.tsx', '.js', '.jsx', '.py']`). -/
def relExtensions : List String := ["", ".ts", ".tsx", ".js", ".jsx", ".py"]

/-- The extension trial list of the absolute branch (`['.py', '.js', '.ts']`). -/
def absExtensions : List String := [".py", ".js", ".ts"]

/-- The `potential_base` segment list of the relative branch: strip leading
`"../"` markers (walking up one directory per marker) or leading `./`
characters, then join the remainder onto the source file's directory. -/
def relativeBase (import_path source_file : String) : List String :=
  let source_dir := (splitSegs source_file).dropLast
  let levels_up := countUpLevels import_path
  if levels_up > 0 then
    dropLastN source_dir levels_up ++ splitSegs (stripUpLevels levels_up import_path)
  else
    source_dir ++ splitSegs (lstripDotSlash import_path)

/-- The per-extension loop of the relative branch: for each extension try the
joined path with the extension appended, then the joined path as a directory
holding `index` plus the extension; the first member of `internal_files`
wins. -/
def tryRelExtensions (base : List String) (internal_files : List String) :
    List String → Option String
  | [] => none
  | ext :: rest =>
    if renderPath base ++ ext ∈ internal_files then
      some (renderPath base ++ ext)
    else if renderPath (base ++ ["index" ++ ext]) ∈ internal_files then
      some (renderPath (base ++ ["index" ++ ext]))
    else tryRelExtensions base internal_files rest

/-- The per-extension loop of the absolute branch: `module_path + ext`, then
`module_path + "/__init__.py"`. -/
def tryAbsExtensions (module_path : String) (internal_files : List String) :
    List String → Option String
  | [] => none
  | ext :: rest =>
    if module_path ++ ext ∈ internal_files then some (module_path ++ ext)
    else if module_path ++ "/__init__.py" ∈ internal_files then
      some (module_path ++ "/__init__.py")
    else tryAbsExtensions module_path internal_files rest

/-- Model of `_resolve_import_to_file(import_path, source_file, internal_files, _)`.
An import that neither starts with `'.'` nor `'/'` nor contains a `'/'` is
immediately classified external (`None`); imports starting with `'.'` go
through the relative candidate loop; the rest go through the absolute loop
after `'.' → '/'` translation. -/
def resolve_import_to_file (import_path source_file : String)
    (internal_files : List String) : Option String :=
  if !strStartsWith import_path "." && !strStartsWith import_path "/"
      && !strContainsChar import_path '/' then
    none
  else if strStartsWith import_path "." then
    tryRelExtensions (relativeBase import_path source_file) internal_files relExtensions
  else
    tryAbsExtensions (dotsToSlashes import_path) internal_files absExtensions

/-! ## Association-list models of the Python dicts -/

/-- One step of building a counting dict: `d[k] = d.get(k, 0) + 1`, appending
a fresh key at the end (Python dicts preserve insertion order). -/
def bumpKey : List (String × Nat) → String → List (String × Nat)
  | [], k => [(k, 1)]
  | (a, n) :: rest, k =>
    if a = k then (a, n + 1) :: rest else (a, n) :: bumpKey rest k

/-- Occurrence counts of a key list, in first-appearance order (the
`in_degree` / `out_degree` dicts). -/
def tally (ks : List String) : List (String × Nat) :=
  ks.foldl bumpKey []

/-- One step of building a dict of lists: `d.setdefault(k, []).append(v)`,
appending a fresh key at the end. -/
def addToMultimap : List (String × List String) → String → String →
    List (String × List String)
  | [], k, v => [(k, [v])]
  | (a, vs) :: rest, k, v =>
    if a = k then (a, vs ++ [v]) :: rest else (a, vs) :: addToMultimap rest k v

/-- Python `d.get(key, [])` on an association list. -/
def lookupMM : List (String × List String) → String → List String
  | [], _ => []
  | (k, vs) :: rest, key => if k = key then vs else lookupMM rest key

/-! ## `build_dependency_graph` -/

/-- A resolved dependency edge; the Python dict also carries the constant
field `"type": "import"`, omitted here. -/
structure Edge where
  source : String
  target : String
deriving DecidableEq, Repr

/-- The edge-building pass of `build_dependency_graph`: for every file and
every raw import, keep the resolved target (the `if target_file:` guard drops
`None`). -/
def buildEdges (file_dependencies : List (String × List String)) : List Edge :=
  let internal_files := file_dependencies.map Prod.fst
  file_dependencies.flatMap fun p =>
    p.2.filterMap fun imported_module =>
      (resolve_import_to_file imported_module p.1 internal_files).map
        fun target_file => Edge.mk p.1 target_file

/-- Deduplicate keeping first occurrences (one admissible enumeration order of
the Python set `all_imports`). -/
def dedupAux : List String → List String → List String
  | [], _ => []
  | x :: xs, seen =>
    if x ∈ seen then dedupAux xs seen else x :: dedupAux xs (x :: seen)

/-- A graph node (`{"id": …, "label": …, "type": "file", "language": …,
"import_count": …}`; the constant `"type"` field is omitted). -/
structure Node where
  id : String
  label : String
  language : String
  count : Nat
deriving DecidableEq, Repr

/-- Output of `_calculate_graph_metrics`. `avg_dependencies` is a Python float
computed by true division; it is modelled exactly as a rational. -/
structure GraphMetrics where
  most_critical_files : List (String × Nat)
  most_complex_files : List (String × Nat)
  avg_dependencies : ℚ
  total_edges : Nat
deriving DecidableEq, Repr

/-- Stable insertion of an entry into a list sorted by descending count: the
entry goes after every element whose count is at least its own. -/
def insertDesc (x : String × Nat) : List (String × Nat) → List (String × Nat)
  | [] => [x]
  | y :: ys => if x.2 ≤ y.2 then y :: insertDesc x ys else x :: y :: ys

/-- Model of Python's stable `sorted(items, key=lambda x: x[1], reverse=True)`:
entries in descending count order, ties keeping their original (insertion)
order. -/
def sortByCountDesc (l : List (String × Nat)) : List (String × Nat) :=
  l.foldl (fun acc x => insertDesc x acc) []

/-- Model of `_calculate_graph_metrics(dependencies, edges)` (the `dependencies`
argument is unused by the Python body as well). -/
def calculate_graph_metrics (_dependencies : List (String × List String))
    (edges : List Edge) : GraphMetrics :=
  let in_degree := tally (edges.map Edge.target)
  let out_degree := tally (edges.map Edge.source)
  let most_critical := (sortByCountDesc in_degree).take 10
  let most_complex := (sortByCountDesc out_degree).take 10
  { most_critical_files := most_critical
    most_complex_files := most_complex
    avg_dependencies :=
      if out_degree = [] then 0
      else ((out_degree.map Prod.snd).sum : ℚ) / (out_degree.length : ℚ)
    total_edges := edges.length }

/-- The dict returned by `build_dependency_graph`. -/
structure DependencyGraph where
  nodes : List Node
  edges : List Edge
  dependencies : List (String × List String)
  metrics : GraphMetrics
  total_files : Nat
  total_dependencies : Nat
  external_dependencies : List String
deriving DecidableEq, Repr

/-- The pure tail of `build_dependency_graph`, starting from the
`file_dependencies` map produced by the per-file analysis loop
(`all_imports` is the union of all raw-import lists). -/
def buildGraphFromDeps (file_dependencies : List (String × List String)) :
    DependencyGraph :=
  let all_imports := dedupAux (file_dependencies.flatMap Prod.snd) []
  let internal_files := file_dependencies.map Prod.fst
  let nodes := file_dependencies.map fun p =>
    Node.mk p.1 (baseName p.1) (detect_language p.1) p.2.length
  let edges := buildEdges file_dependencies
  { nodes := nodes
    edges := edges
    dependencies := file_dependencies
    metrics := calculate_graph_metrics file_dependencies edges
    total_files := nodes.length
    total_dependencies := edges.length
    external_dependencies :=
      (all_imports.filter (fun s => s ∉ internal_files)).take 50 }

/-! ## `analyze_file_dependencies` and the analysis loop -/

/-- The dict returned by `analyze_file_dependencies` (`import_count` is
`imports.length`; `error` is present exactly when an exception was caught). -/
structure FileAnalysis where
  file : String
  imports : List String
  language : String
  error : Option String
deriving DecidableEq, Repr

/-- Model of `analyze_file_dependencies(file_path)`.  `parse_result` is the oracle for
`open` + `parse` + import extraction: `.error e` models an exception raised
inside the `try:` block, which the `except:` clause turns into an
empty-import result; unsupported languages short-circuit before any I/O. -/
def analyze_file_dependencies (file_path : String)
    (parse_result : Except String (List String)) : FileAnalysis :=
  let language := detect_language file_path
  if language ∉ parserLanguages then
    { file := file_path, imports := [], language := language, error := none }
  else
    match parse_result with
    | Except.ok imports =>
      { file := file_path, imports := imports, language := language, error := none }
    | Except.error e =>
      { file := file_path, imports := [], language := language, error := some e }

/-- The per-file loop of `build_dependency_graph`: `file_dependencies[path] =
analysis['imports']` for every discovered file (`files` pairs each relative
path with its read/parse oracle). -/
def build_file_dependencies (files : List (String × Except String (List String))) :
    List (String × List String) :=
  files.map fun p => (p.1, (analyze_file_dependencies p.1 p.2).imports)

/-- Model of `build_dependency_graph`, from the discovered file list with its
read/parse oracles. -/
def build_dependency_graph (files : List (String × Except String (List String))) :
    DependencyGraph :=
  buildGraphFromDeps (build_file_dependencies files)

/-! ## `_find_transitive_dependents` (breadth-first search) -/

/-- One fuel-indexed unfolding of the `while queue:` loop of
`_find_transitive_dependents`: pop the head, skip it if already visited,
otherwise mark it visited and enqueue its not-yet-visited dependents.
The fuel is only a termination device; `find_transitive_dependents` always
supplies enough of it (`bfsAux_mem_iff` shows the result is fuel-independent
from that point on). -/
def bfsAux (dm : List (String × List String)) :
    Nat → List String → List String → List String
  | 0, _, visited => visited
  | _ + 1, [], visited => visited
  | fuel + 1, current :: queue, visited =>
    if current ∈ visited then bfsAux dm fuel queue visited
    else
      let visited' := current :: visited
      bfsAux dm fuel
        (queue ++ (lookupMM dm current).filter (fun d => d ∉ visited')) visited'

/-- Model of `_find_transitive_dependents(file_path, dependents_map)`: BFS from
`file_path` over the dependents map, then `visited.discard(file_path)`.
The visited set is a duplicate-free list; the fuel bound
`total size of all value lists + 1` dominates the loop's iteration count. -/
def find_transitive_dependents (file_path : String)
    (dependents_map : List (String × List String)) : List String :=
  let fuel := (dependents_map.map (fun p => p.2.length)).sum + 1
  (bfsAux dependents_map fuel [file_path] []).filter (fun x => x ≠ file_path)

/-! ## `get_file_impact` -/

/-- The `dependents_map` dict: edge target ↦ list of edge sources, built by appending
in edge order. -/
def dependentsMapOf (edges : List Edge) : List (String × List String) :=
  edges.foldl (fun m e => addToMultimap m e.target e.source) []

/-- The `dependencies_map` of `get_file_impact` (and the identical
`internal_deps_map` of `save_to_cache`): edge source ↦ list of edge targets. -/
def dependenciesMapOf (edges : List Edge) : List (String × List String) :=
  edges.foldl (fun m e => addToMultimap m e.source e.target) []

/-- The dict returned by `get_file_impact` (the `test_files` field — the
`_find_test_files` heuristic over node labels — is not modelled; no claim
mentions it). -/
structure ImpactReport where
  file : String
  direct_dependents : List String
  all_dependents : List String
  dependent_count : Nat
  direct_dependencies : List String
  dependency_count : Nat
  risk_level : String
  impact_summary : String
deriving DecidableEq, Repr

/-- Model of `get_file_impact(_, file_path, graph_data)`; only `graph_data['edges']`
feeds the modelled fields.  Note: there is no membership check of `file_path`
against the graph's node set anywhere in the body. -/
def get_file_impact (file_path : String) (edges : List Edge) : ImpactReport :=
  let dependents_map := dependentsMapOf edges
  let dependencies_map := dependenciesMapOf edges
  let direct_dependents := lookupMM dependents_map file_path
  let all_dependents := find_transitive_dependents file_path dependents_map
  let direct_dependencies := lookupMM dependencies_map file_path
  let risk_level :=
    if all_dependents.length > 10 then "high"
    else if all_dependents.length > 3 then "medium"
    else "low"
  let n := all_dependents.length
  let impact_summary :=
    if n = 0 then "No files depend on this - safe to modify"
    else if n = 1 then "1 file would be affected by changes"
    else s!"{n} files would be affected by changes"
  { file := file_path
    direct_dependents := direct_dependents
    all_dependents := all_dependents
    dependent_count := all_dependents.length
    direct_dependencies := direct_dependencies
    dependency_count := direct_dependencies.length
    risk_level := risk_level
    impact_summary := impact_summary }

/-! ## `save_to_cache` / `load_from_cache` -/

/-- One row of the `file_dependencies` bulk insert of `save_to_cache`. -/
structure CacheRow where
  file_path : String
  depends_on : List String
  depended_by : List String
  imported_count : Nat
  dependent_count : Nat
deriving DecidableEq, Repr

/-- The rows `save_to_cache` hands to the persistence collaborator: for each
file, its *resolved internal* dependencies (`internal_deps_map`, built from
the edge list — explicitly not the raw imports), its reverse dependencies, and
the two counts. -/
def saveRows (dependencies : List (String × List String)) (edges : List Edge) :
    List CacheRow :=
  let internal_deps_map := dependenciesMapOf edges
  dependencies.map fun p =>
    let internal_deps := lookupMM internal_deps_map p.1
    let depended_by :=
      (internal_deps_map.filter (fun q => p.1 ∈ q.2)).map Prod.fst
    { file_path := p.1
      depends_on := internal_deps
      depended_by := depended_by
      imported_count := p.2.length
      dependent_count := depended_by.length }

/-- The edge reconstruction of `load_from_cache`: rebuild the `dependencies`
map from the stored rows and keep `(file, imported)` exactly when `imported`
is itself a stored file path; no resolver is run. -/
def loadEdges (rows : List CacheRow) : List Edge :=
  let dependencies := rows.map fun r => (r.file_path, r.depends_on)
  dependencies.flatMap fun p =>
    p.2.filterMap fun imported =>
      if imported ∈ dependencies.map Prod.fst then some (Edge.mk p.1 imported)
      else none

/-! ## Spec-side definition for the candidate-order claim -/

/-- Modelled from the spec's words for the relative-resolution order (§4.3 of
the specification): "the joined path unmodified, the joined path with each of
a configured set of source-file extensions appended, and the joined path as a
directory containing an `index.<ext>` for each configured extension", first
member of the known-path set wins.  This is the comparison definition for the
candidate-order claim, not a translation of the source. -/
def specOrderCandidates (base : List String) : List String :=
  [renderPath base]
    ++ (relExtensions.filter (fun e => e ≠ "")).map (fun ext => renderPath base ++ ext)
    ++ (relExtensions.filter (fun e => e ≠ "")).map
        (fun ext => renderPath (base ++ ["index" ++ ext]))

/-- First element of `cands` that lies in `known`. -/
def firstMatch (cands known : List String) : Option String :=
  match cands with
  | [] => none
  | c :: rest => if c ∈ known then some c else firstMatch rest known

/-- Spec-side relative resolution: `firstMatch` over `specOrderCandidates`. -/
def specOrderResolve (import_path source_file : String)
    (internal_files : List String) : Option String :=
  firstMatch (specOrderCandidates (relativeBase import_path source_file))
    internal_files

/-- The interleaved candidate list the code actually tries, in order: for each
extension, the joined path with the extension appended and then the
`index`-file candidate for the same extension. -/
def codeOrderCandidates (base : List String) : List String :=
  relExtensions.flatMap fun ext =>
    [renderPath base ++ ext, renderPath (base ++ ["index" ++ ext])]

/-! ## Lemmas: association-list dictionaries -/

theorem lookupMM_addToMultimap (m : List (String × List String)) (k v key : String) :
    lookupMM (addToMultimap m k v) key =
      if key = k then lookupMM m k ++ [v] else lookupMM m key := by
  induction m with
  | nil =>
    by_cases h : key = k
    · subst h; simp [addToMultimap, lookupMM]
    · simp [addToMultimap, lookupMM, h, Ne.symm h]
  | cons p rest ih =>
    obtain ⟨a, vs⟩ := p
    by_cases hak : a = k
    · subst hak
      by_cases hk : key = a
      · subst hk; simp [addToMultimap, lookupMM]
      · simp [addToMultimap, lookupMM, hk, Ne.symm hk]
    · by_cases hka : a = key
      · subst hka
        simp [addToMultimap, lookupMM, hak, Ne.symm hak]
      · simp [addToMultimap, lookupMM, hak, hka, ih]

theorem lookupMM_foldl_addToMultimap (f g : Edge → String) (edges : List Edge) :
    ∀ (m : List (String × List String)) (key : String),
      lookupMM (edges.foldl (fun acc e => addToMultimap acc (f e) (g e)) m) key =
        lookupMM m key ++ (edges.filter (fun e => f e = key)).map g := by
  induction edges with
  | nil => simp
  | cons e es ih =>
    intro m key
    simp only [List.foldl_cons, ih, List.filter_cons]
    by_cases h : f e = key
    · subst h
      rw [lookupMM_addToMultimap, if_pos rfl]
      simp [List.append_assoc]
    · rw [lookupMM_addToMultimap, if_neg (fun h' => h h'.symm)]
      simp [h]

theorem lookupMM_dependentsMapOf (edges : List Edge) (key : String) :
    lookupMM (dependentsMapOf edges) key =
      (edges.filter (fun e => e.target = key)).map Edge.source := by
  simpa [lookupMM] using
    lookupMM_foldl_addToMultimap Edge.target Edge.source edges [] key

theorem lookupMM_dependenciesMapOf (edges : List Edge) (key : String) :
    lookupMM (dependenciesMapOf edges) key =
      (edges.filter (fun e => e.source = key)).map Edge.target := by
  simpa [lookupMM] using
    lookupMM_foldl_addToMultimap Edge.source Edge.target edges [] key

/-! ## Lemmas: the resolver only returns known paths -/

theorem tryRelExtensions_mem (base internal : List String) :
    ∀ (exts : List String) (p : String),
      tryRelExtensions base internal exts = some p → p ∈ internal := by
  intro exts
  induction exts with
  | nil => intro p h; simp [tryRelExtensions] at h
  | cons ext rest ih =>
    intro p h
    unfold tryRelExtensions at h
    split_ifs at h with h1 h2
    · exact Option.some_inj.mp h ▸ h1
    · exact Option.some_inj.mp h ▸ h2
    · exact ih p h

theorem tryAbsExtensions_mem (module_path : String) (internal : List String) :
    ∀ (exts : List String) (p : String),
      tryAbsExtensions module_path internal exts = some p → p ∈ internal := by
  intro exts
  induction exts with
  | nil => intro p h; simp [tryAbsExtensions] at h
  | cons ext rest ih =>
    intro p h
    unfold tryAbsExtensions at h
    split_ifs at h with h1 h2
    · exact Option.some_inj.mp h ▸ h1
    · exact Option.some_inj.mp h ▸ h2
    · exact ih p h

/-- Whatever `_resolve_import_to_file` returns lies in `internal_files`:
every `return` statement of the function is guarded by a membership test. -/
theorem resolve_mem_internal (imp src : String) (internal : List String)
    (p : String) (h : resolve_import_to_file imp src internal = some p) :
    p ∈ internal := by
  unfold resolve_import_to_file at h
  split_ifs at h
  all_goals
    first
      | exact absurd h (by simp)
      | exact tryRelExtensions_mem _ _ _ _ h
      | exact tryAbsExtensions_mem _ _ _ _ h

/-- Every edge built by `build_dependency_graph` has both endpoints in the
node-path set. -/
theorem buildEdges_endpoints (deps : List (String × List String)) (e : Edge)
    (h : e ∈ buildEdges deps) :
    e.source ∈ deps.map Prod.fst ∧ e.target ∈ deps.map Prod.fst := by
  simp only [buildEdges, List.mem_flatMap, List.mem_filterMap, Option.map_eq_some']
    at h
  obtain ⟨p, hp, imp, _, tgt, hres, rfl⟩ := h
  exact ⟨List.mem_map_of_mem Prod.fst hp, resolve_mem_internal _ _ _ _ hres⟩

/-! ## Lemmas: stable descending sort -/

theorem mem_insertDesc (x y : String × Nat) (l : List (String × Nat)) :
    y ∈ insertDesc x l ↔ y = x ∨ y ∈ l := by
  induction l with
  | nil => simp [insertDesc]
  | cons z zs ih =>
    by_cases h : x.2 ≤ z.2
    · rw [insertDesc, if_pos h]
      simp only [List.mem_cons, ih]
      tauto
    · rw [insertDesc, if_neg h]
      simp only [List.mem_cons]

theorem sorted_insertDesc (x : String × Nat) (l : List (String × Nat))
    (hl : l.Pairwise (fun a b => b.2 ≤ a.2)) :
    (insertDesc x l).Pairwise (fun a b => b.2 ≤ a.2) := by
  induction l with
  | nil => simp [insertDesc]
  | cons z zs ih =>
    rcases List.pairwise_cons.mp hl with ⟨hz, hzs⟩
    by_cases h : x.2 ≤ z.2
    · rw [insertDesc, if_pos h]
      refine List.pairwise_cons.mpr ⟨?_, ih hzs⟩
      intro y hy
      rcases (mem_insertDesc x y zs).mp hy with rfl | hyz
      · exact h
      · exact hz y hyz
    · rw [insertDesc, if_neg h]
      refine List.pairwise_cons.mpr ⟨?_, hl⟩
      intro y hy
      rcases List.mem_cons.mp hy with rfl | hy
      · omega
      · exact le_trans (hz y hy) (by omega)

theorem sorted_sortByCountDesc (l : List (String × Nat)) :
    (sortByCountDesc l).Pairwise (fun a b => b.2 ≤ a.2) := by
  suffices h : ∀ acc : List (String × Nat), acc.Pairwise (fun a b => b.2 ≤ a.2) →
      (l.foldl (fun acc x => insertDesc x acc) acc).Pairwise (fun a b => b.2 ≤ a.2) by
    exact h [] (by simp)
  induction l with
  | nil => intro acc hacc; simpa using hacc
  | cons x xs ih =>
    intro acc hacc
    exact ih _ (sorted_insertDesc x acc hacc)

/-! ## Lemmas: degree tallies -/

theorem bumpKey_snd_sum (acc : List (String × Nat)) (k : String) :
    ((bumpKey acc k).map Prod.snd).sum = (acc.map Prod.snd).sum + 1 := by
  induction acc with
  | nil => simp [bumpKey]
  | cons p rest ih =>
    obtain ⟨a, n⟩ := p
    by_cases h : a = k <;> simp [bumpKey, h, ih] <;> omega

theorem bumpKey_fst (acc : List (String × Nat)) (k : String) :
    (bumpKey acc k).map Prod.fst =
      if k ∈ acc.map Prod.fst then acc.map Prod.fst
      else acc.map Prod.fst ++ [k] := by
  induction acc with
  | nil => simp [bumpKey]
  | cons p rest ih =>
    obtain ⟨a, n⟩ := p
    by_cases h : a = k
    · subst h; simp [bumpKey]
    · simp [bumpKey, h, ih, Ne.symm h]
      by_cases hk : k ∈ rest.map Prod.fst <;> simp [hk, Ne.symm h]

theorem tally_snd_sum (ks : List String) :
    ((tally ks).map Prod.snd).sum = ks.length := by
  suffices h : ∀ acc : List (String × Nat),
      ((ks.foldl bumpKey acc).map Prod.snd).sum = (acc.map Prod.snd).sum + ks.length by
    simpa using h []
  induction ks with
  | nil => simp
  | cons k ks ih =>
    intro acc
    simp only [List.foldl_cons, ih, bumpKey_snd_sum, List.length_cons]
    omega

theorem foldl_bumpKey_fst_toFinset (ks : List String) :
    ∀ acc : List (String × Nat),
      ((ks.foldl bumpKey acc).map Prod.fst).toFinset =
        (acc.map Prod.fst).toFinset ∪ ks.toFinset := by
  induction ks with
  | nil => simp
  | cons k ks ih =>
    intro acc
    simp only [List.foldl_cons, ih, bumpKey_fst, List.toFinset_cons]
    by_cases h : k ∈ acc.map Prod.fst
    · rw [if_pos h]
      ext x
      simp only [Finset.mem_union, Finset.mem_insert, List.mem_toFinset]
      constructor
      · rintro (hx | hx)
        · exact Or.inl hx
        · exact Or.inr (Or.inr hx)
      · rintro (hx | rfl | hx)
        · exact Or.inl hx
        · exact Or.inl h
        · exact Or.inr hx
    · rw [if_neg h]
      ext x
      simp only [Finset.mem_union, Finset.mem_insert, List.mem_toFinset,
        List.mem_append, List.mem_singleton]
      tauto

theorem foldl_bumpKey_fst_nodup (ks : List String) :
    ∀ acc : List (String × Nat), (acc.map Prod.fst).Nodup →
      ((ks.foldl bumpKey acc).map Prod.fst).Nodup := by
  induction ks with
  | nil => intro acc h; simpa using h
  | cons k ks ih =>
    intro acc hacc
    refine ih _ ?_
    rw [bumpKey_fst]
    by_cases h : k ∈ acc.map Prod.fst
    · rwa [if_pos h]
    · rw [if_neg h]
      refine List.Nodup.append hacc (List.nodup_singleton k) ?_
      intro x hx hk
      rw [List.mem_singleton] at hk
      exact h (hk ▸ hx)

theorem tally_length (ks : List String) :
    (tally ks).length = ks.toFinset.card := by
  have h2 : ((tally ks).map Prod.fst).Nodup :=
    foldl_bumpKey_fst_nodup ks [] (by simp)
  have h1 : ((tally ks).map Prod.fst).toFinset = ks.toFinset := by
    have h := foldl_bumpKey_fst_toFinset ks []
    simp only [List.map_nil, List.toFinset_nil, Finset.empty_union] at h
    exact h
  calc (tally ks).length
      = ((tally ks).map Prod.fst).length := by simp
    _ = ((tally ks).map Prod.fst).toFinset.card :=
        (List.toFinset_card_of_nodup h2).symm
    _ = ks.toFinset.card := by rw [h1]

theorem tally_eq_nil_iff (ks : List String) : tally ks = [] ↔ ks = [] := by
  constructor
  · intro h
    have := tally_snd_sum ks
    rw [h] at this
    simpa using (List.length_eq_zero.mp this.symm)
  · rintro rfl; rfl

/-! ## Lemmas: set-minus model for `external_dependencies` -/

theorem mem_dedupAux (l : List String) :
    ∀ (seen : List String) (x : String),
      x ∈ dedupAux l seen ↔ x ∈ l ∧ x ∉ seen := by
  induction l with
  | nil => simp [dedupAux]
  | cons y ys ih =>
    intro seen x
    by_cases h : y ∈ seen
    · rw [dedupAux, if_pos h, ih]
      constructor
      · rintro ⟨hx, hs⟩
        exact ⟨List.mem_cons_of_mem _ hx, hs⟩
      · rintro ⟨hx, hs⟩
        rcases List.mem_cons.mp hx with rfl | hx
        · exact absurd h hs
        · exact ⟨hx, hs⟩
    · rw [dedupAux, if_neg h]
      constructor
      · intro hx
        rcases List.mem_cons.mp hx with rfl | hx
        · exact ⟨List.mem_cons_self _ _, h⟩
        · obtain ⟨h1, h2⟩ := (ih _ _).mp hx
          simp only [List.mem_cons, not_or] at h2
          exact ⟨List.mem_cons_of_mem _ h1, h2.2⟩
      · rintro ⟨hx, hs⟩
        rcases List.mem_cons.mp hx with rfl | hx
        · exact List.mem_cons_self _ _
        · by_cases hxy : x = y
          · subst hxy; exact List.mem_cons_self _ _
          · refine List.mem_cons_of_mem _ ((ih _ _).mpr ⟨hx, ?_⟩)
            simp [List.mem_cons, hxy, hs]

/-! ## Lemmas: breadth-first search computes reverse reachability

`ReachMM dm t x` is the specification side: `x` is reachable from `t` by
following the dependents map any number of steps.  `bfsAux_mem_iff` is the
loop invariant proof: provided the fuel dominates the potential
`queue.length + pendingCount`, the visited list on termination is exactly
the start list plus everything reachable from `t`. -/

/-- One traversal step of the dependents map. -/
def StepMM (dm : List (String × List String)) (a b : String) : Prop :=
  b ∈ lookupMM dm a

/-- Reverse reachability: zero or more `StepMM` steps. -/
def ReachMM (dm : List (String × List String)) (t x : String) : Prop :=
  Relation.ReflTransGen (StepMM dm) t x

/-- The potential of a BFS state: edges whose key is still unvisited can each
contribute at most one future enqueue. -/
def pendingCount (dm : List (String × List String)) (visited : List String) : Nat :=
  (dm.map fun p => if p.1 ∈ visited then 0 else p.2.length).sum

theorem pendingCount_mono (dm : List (String × List String)) (c : String)
    (v : List String) : pendingCount dm (c :: v) ≤ pendingCount dm v := by
  induction dm with
  | nil => simp [pendingCount]
  | cons p rest ih =>
    simp only [pendingCount, List.map_cons, List.sum_cons] at ih ⊢
    have : (if p.1 ∈ c :: v then 0 else p.2.length) ≤
        (if p.1 ∈ v then 0 else p.2.length) := by
      by_cases h : p.1 ∈ v
      · simp [h, List.mem_cons_of_mem]
      · split <;> omega
    omega

theorem pendingCount_drop (dm : List (String × List String)) (c : String)
    (v : List String) (hc : c ∉ v) :
    pendingCount dm (c :: v) + (lookupMM dm c).length ≤ pendingCount dm v := by
  induction dm with
  | nil => simp [pendingCount, lookupMM]
  | cons p rest ih =>
    obtain ⟨k, vs⟩ := p
    by_cases hk : k = c
    · subst hk
      have hmono := pendingCount_mono rest k v
      simp only [pendingCount, List.map_cons, List.sum_cons, lookupMM] at hmono ⊢
      rw [if_pos (List.mem_cons_self k v), if_pos (by trivial), if_neg hc]
      omega
    · have hmem : (k ∈ c :: v) ↔ (k ∈ v) := by simp [List.mem_cons, hk]
      simp only [pendingCount, List.map_cons, List.sum_cons, lookupMM,
        if_neg hk] at ih ⊢
      by_cases hkv : k ∈ v
      · rw [if_pos (hmem.mpr hkv), if_pos hkv]
        omega
      · rw [if_neg (fun hh => hkv (hmem.mp hh)), if_neg hkv]
        omega

theorem bfsAux_nil (dm : List (String × List String)) (fuel : Nat)
    (visited : List String) : bfsAux dm fuel [] visited = visited := by
  cases fuel <;> rfl

/-- A visited list that contains `t` and is closed under the dependents map
contains everything reachable from `t`. -/
theorem closed_reach_mem (dm : List (String × List String)) (t : String)
    (v : List String) (htv : t ∈ v)
    (hclosed : ∀ x ∈ v, ∀ d ∈ lookupMM dm x, d ∈ v) :
    ∀ x, ReachMM dm t x → x ∈ v := by
  intro x hx
  induction hx with
  | refl => exact htv
  | tail _ hbc ih => exact hclosed _ ih _ hbc

/-- The BFS loop invariant.  With enough fuel, the result of `bfsAux` is the
initial visited list together with everything reachable from `t`. -/
theorem bfsAux_mem_iff (dm : List (String × List String)) (t : String) :
    ∀ (fuel : Nat) (queue visited : List String),
      queue.length + pendingCount dm visited ≤ fuel →
      (∀ x ∈ visited, ReachMM dm t x) →
      (∀ x ∈ queue, ReachMM dm t x) →
      (∀ x ∈ visited, ∀ d ∈ lookupMM dm x, d ∈ visited ∨ d ∈ queue) →
      (t ∈ visited ∨ t ∈ queue) →
      ∀ x, x ∈ bfsAux dm fuel queue visited ↔ (x ∈ visited ∨ ReachMM dm t x) := by
  intro fuel
  induction fuel with
  | zero =>
    intro queue visited hΦ hv _ hclosed ht x
    have hq : queue = [] := by
      cases queue with
      | nil => rfl
      | cons a as => simp at hΦ
    subst hq
    rw [bfsAux]
    have htv : t ∈ visited := ht.resolve_right (by simp)
    have hcl : ∀ y ∈ visited, ∀ d ∈ lookupMM dm y, d ∈ visited := by
      intro y hy d hd
      exact (hclosed y hy d hd).resolve_right (by simp)
    exact ⟨fun h => Or.inl h,
      fun h => h.elim id (closed_reach_mem dm t visited htv hcl x)⟩
  | succ n ih =>
    intro queue visited hΦ hv hq hclosed ht x
    cases queue with
    | nil =>
      rw [bfsAux_nil]
      have htv : t ∈ visited := ht.resolve_right (by simp)
      have hcl : ∀ y ∈ visited, ∀ d ∈ lookupMM dm y, d ∈ visited := by
        intro y hy d hd
        exact (hclosed y hy d hd).resolve_right (by simp)
      exact ⟨fun h => Or.inl h,
        fun h => h.elim id (closed_reach_mem dm t visited htv hcl x)⟩
    | cons c q =>
      rw [bfsAux]
      by_cases hcv : c ∈ visited
      · rw [if_pos hcv]
        refine ih q visited ?_ hv ?_ ?_ ?_ x
        · simp only [List.length_cons] at hΦ; omega
        · exact fun y hy => hq y (List.mem_cons_of_mem _ hy)
        · intro y hy d hd
          rcases hclosed y hy d hd with hd' | hd'
          · exact Or.inl hd'
          · rcases List.mem_cons.mp hd' with rfl | hd''
            · exact Or.inl hcv
            · exact Or.inr hd''
        · rcases ht with h | h
          · exact Or.inl h
          · rcases List.mem_cons.mp h with rfl | h'
            · exact Or.inl hcv
            · exact Or.inr h'
      · rw [if_neg hcv]
        have hreach_c : ReachMM dm t c := hq c (List.mem_cons_self _ _)
        have hΦ' : (q ++ (lookupMM dm c).filter (fun d => d ∉ c :: visited)).length
            + pendingCount dm (c :: visited) ≤ n := by
          have hdrop := pendingCount_drop dm c visited hcv
          have hfil : ((lookupMM dm c).filter
              (fun d => d ∉ c :: visited)).length ≤ (lookupMM dm c).length :=
            List.length_filter_le _ _
          simp only [List.length_append, List.length_cons] at hΦ ⊢
          omega
        have hv' : ∀ x ∈ c :: visited, ReachMM dm t x := by
          intro y hy
          rcases List.mem_cons.mp hy with rfl | hy'
          · exact hreach_c
          · exact hv y hy'
        have hq' : ∀ x ∈ q ++ (lookupMM dm c).filter (fun d => d ∉ c :: visited),
            ReachMM dm t x := by
          intro y hy
          rcases List.mem_append.mp hy with hy' | hy'
          · exact hq y (List.mem_cons_of_mem _ hy')
          · have hyc : y ∈ lookupMM dm c := List.mem_of_mem_filter hy'
            exact Relation.ReflTransGen.tail hreach_c hyc
        have hcl' : ∀ x ∈ c :: visited, ∀ d ∈ lookupMM dm x,
            d ∈ c :: visited
              ∨ d ∈ q ++ (lookupMM dm c).filter (fun d => d ∉ c :: visited) := by
          intro y hy d hd
          rcases List.mem_cons.mp hy with hyc | hy'
          · rw [hyc] at hd
            by_cases hdv : d ∈ c :: visited
            · exact Or.inl hdv
            · refine Or.inr (List.mem_append_right _ ?_)
              rw [List.mem_filter]
              exact ⟨hd, by simpa using hdv⟩
          · rcases hclosed y hy' d hd with hd' | hd'
            · exact Or.inl (List.mem_cons_of_mem _ hd')
            · rcases List.mem_cons.mp hd' with rfl | hd''
              · exact Or.inl (List.mem_cons_self _ _)
              · exact Or.inr (List.mem_append_left _ hd'')
        have ht' : t ∈ c :: visited
            ∨ t ∈ q ++ (lookupMM dm c).filter (fun d => d ∉ c :: visited) := by
          rcases ht with h | h
          · exact Or.inl (List.mem_cons_of_mem _ h)
          · rcases List.mem_cons.mp h with rfl | h'
            · exact Or.inl (List.mem_cons_self _ _)
            · exact Or.inr (List.mem_append_left _ h')
        have key := ih _ _ hΦ' hv' hq' hcl' ht' x
        rw [key]
        constructor
        · rintro (h | h)
          · rcases List.mem_cons.mp h with rfl | h'
            · exact Or.inr hreach_c
            · exact Or.inl h'
          · exact Or.inr h
        · rintro (h | h)
          · exact Or.inl (List.mem_cons_of_mem _ h)
          · exact Or.inr h

/-- The value of `pendingCount` over the empty visited list is the total size of all
value lists, so the fuel chosen by `find_transitive_dependents` suffices. -/
theorem pendingCount_nil (dm : List (String × List String)) :
    pendingCount dm [] = (dm.map fun p => p.2.length).sum := by
  simp [pendingCount]

/-- Membership characterisation of `_find_transitive_dependents`: exactly the
nodes reachable from `file_path` through the dependents map, the start node
excluded — and the BFS always terminates regardless of cycles, since
`find_transitive_dependents` is a total function. -/
theorem mem_find_transitive_dependents (dm : List (String × List String))
    (t x : String) :
    x ∈ find_transitive_dependents t dm ↔ x ≠ t ∧ ReachMM dm t x := by
  unfold find_transitive_dependents
  rw [List.mem_filter]
  have h := bfsAux_mem_iff dm t ((dm.map fun p => p.2.length).sum + 1) [t] []
    (by rw [pendingCount_nil]; simp only [List.length_singleton]; omega)
    (by simp)
    (by intro y hy; rw [List.mem_singleton] at hy; subst hy; exact .refl)
    (by simp [lookupMM])
    (Or.inr (List.mem_singleton_self t))
  rw [h x]
  simp only [List.not_mem_nil, false_or]
  constructor
  · rintro ⟨h1, h2⟩
    exact ⟨by simpa using h2, h1⟩
  · rintro ⟨h1, h2⟩
    exact ⟨h2, by simpa using h1⟩

/-! ## Lemmas: cache round trip -/

theorem mem_loadEdges (rows : List CacheRow) (e : Edge) :
    e ∈ loadEdges rows ↔ ∃ r ∈ rows, e.source = r.file_path ∧
      e.target ∈ r.depends_on ∧ e.target ∈ rows.map CacheRow.file_path := by
  simp only [loadEdges, List.mem_flatMap, List.mem_map, List.mem_filterMap]
  constructor
  · rintro ⟨p, ⟨r, hr, rfl⟩, imported, himp, hif⟩
    split_ifs at hif with hkey
    obtain rfl := Option.some_inj.mp hif
    refine ⟨r, hr, rfl, himp, ?_⟩
    simpa [List.map_map, Function.comp] using hkey
  · rintro ⟨r, hr, hsrc, htgt, hkeys⟩
    refine ⟨(r.file_path, r.depends_on), ⟨r, hr, rfl⟩, e.target, htgt, ?_⟩
    rw [if_pos (by simpa [List.map_map, Function.comp] using hkeys), ← hsrc]

theorem mem_saveRows (deps : List (String × List String)) (edges : List Edge)
    (r : CacheRow) :
    r ∈ saveRows deps edges ↔ ∃ p ∈ deps,
      r = { file_path := p.1
            depends_on := lookupMM (dependenciesMapOf edges) p.1
            depended_by := ((dependenciesMapOf edges).filter
              (fun q => p.1 ∈ q.2)).map Prod.fst
            imported_count := p.2.length
            dependent_count := (((dependenciesMapOf edges).filter
              (fun q => p.1 ∈ q.2)).map Prod.fst).length } := by
  simp only [saveRows, List.mem_map]
  constructor
  · rintro ⟨p, hp, rfl⟩
    exact ⟨p, hp, rfl⟩
  · rintro ⟨p, hp, rfl⟩
    exact ⟨p, hp, rfl⟩

theorem saveRows_keys (deps : List (String × List String)) (edges : List Edge) :
    (saveRows deps edges).map CacheRow.file_path = deps.map Prod.fst := by
  simp [saveRows, List.map_map, Function.comp]

/-! ## Lemmas: the relative candidate order -/

theorem tryRelExtensions_eq_firstMatch (base internal : List String) :
    ∀ exts : List String,
      tryRelExtensions base internal exts =
        firstMatch (exts.flatMap fun ext =>
          [renderPath base ++ ext, renderPath (base ++ ["index" ++ ext])])
          internal := by
  intro exts
  induction exts with
  | nil => rfl
  | cons ext rest ih =>
    have hc : ((ext :: rest).flatMap fun ext =>
        [renderPath base ++ ext, renderPath (base ++ ["index" ++ ext])]) =
      (renderPath base ++ ext) :: renderPath (base ++ ["index" ++ ext]) ::
        (rest.flatMap fun ext =>
          [renderPath base ++ ext, renderPath (base ++ ["index" ++ ext])]) := by
      simp
    rw [hc, tryRelExtensions]
    by_cases h1 : renderPath base ++ ext ∈ internal
    · simp [firstMatch, h1]
    · by_cases h2 : renderPath (base ++ ["index" ++ ext]) ∈ internal
      · simp [firstMatch, h1, h2]
      · rw [if_neg h1, if_neg h2, ih]
        simp [firstMatch, h1, h2]

/-! # Claim theorems -/

/-- C1 (counterexample): The no-self-loop invariant fails: a file `a.js`
that imports itself as `./a` is resolved to `a.js` — its own
path — and the built graph then contains the self-loop edge
`(a.js, a.js)`.  `_resolve_import_to_file` has no
`resolved_path == importing_file_path` guard. -/
theorem c1_self_loop_counterexample :
    resolve_import_to_file "./a" "a.js" ["a.js"] = some "a.js"
      ∧ Edge.mk "a.js" "a.js" ∈ buildEdges [("a.js", ["./a"])] :=
  ⟨by decide, by decide⟩

/-- C1 (amended): Resolution always returns a member of the known-path
set — every `return` in `_resolve_import_to_file` is guarded by a membership
test — but it never compares the result with `source_file`, so the resolved
path may equal the importing file's path and self-loop edges are possible
(see the counterexample). -/
theorem c1_resolution_stays_internal (imp src : String)
    (internal : List String) (p : String)
    (h : resolve_import_to_file imp src internal = some p) : p ∈ internal :=
  resolve_mem_internal imp src internal p h

theorem c1_resolution_stays_internal_witness : "b.js" ∈ ["a.js", "b.js"] :=
  c1_resolution_stays_internal "./b" "a.js" ["a.js", "b.js"] "b.js" (by decide)

/-- C2 (counterexample): `get_file_impact` performs no node-membership
check: querying the target `zzz`, absent from the graph with the single edge
`a.py → b.py`, does not fail with a "not found" error — it returns an
ordinary report claiming the file is safe to modify. -/
theorem c2_absent_target_counterexample :
    "zzz" ∉ ["a.py", "b.py"]
      ∧ get_file_impact "zzz" [Edge.mk "a.py" "b.py"] =
        { file := "zzz"
          direct_dependents := []
          all_dependents := []
          dependent_count := 0
          direct_dependencies := []
          dependency_count := 0
          risk_level := "low"
          impact_summary := "No files depend on this - safe to modify" } :=
  ⟨by decide, by decide⟩

/-- C2 (amended): The engine has no user-facing "not found" error at all:
`get_file_impact` is total, and on any target that is not an endpoint of any
edge it succeeds with the benign report — no dependents, no dependencies,
risk `low`. -/
theorem c2_absent_target_report (edges : List Edge) (t : String)
    (h : ∀ e ∈ edges, e.source ≠ t ∧ e.target ≠ t) :
    (get_file_impact t edges).direct_dependents = []
      ∧ (get_file_impact t edges).all_dependents = []
      ∧ (get_file_impact t edges).dependent_count = 0
      ∧ (get_file_impact t edges).direct_dependencies = []
      ∧ (get_file_impact t edges).risk_level = "low" := by
  have hdep : lookupMM (dependentsMapOf edges) t = [] := by
    rw [lookupMM_dependentsMapOf]
    have hf : edges.filter (fun e => e.target = t) = [] := by
      rw [List.filter_eq_nil_iff]
      intro e he
      simpa using (h e he).2
    rw [hf]
    rfl
  have hdeps : lookupMM (dependenciesMapOf edges) t = [] := by
    rw [lookupMM_dependenciesMapOf]
    have hf : edges.filter (fun e => e.source = t) = [] := by
      rw [List.filter_eq_nil_iff]
      intro e he
      simpa using (h e he).1
    rw [hf]
    rfl
  have hall : find_transitive_dependents t (dependentsMapOf edges) = [] := by
    rw [List.eq_nil_iff_forall_not_mem]
    intro x hx
    obtain ⟨hne, hreach⟩ := (mem_find_transitive_dependents _ _ _).mp hx
    rcases Relation.ReflTransGen.cases_head hreach with heq | ⟨b, hstep, _⟩
    · exact hne heq.symm
    · have hb : b ∈ lookupMM (dependentsMapOf edges) t := hstep
      rw [hdep] at hb
      exact List.not_mem_nil b hb
  refine ⟨hdep, hall, ?_, hdeps, ?_⟩
  · show (find_transitive_dependents t (dependentsMapOf edges)).length = 0
    rw [hall]
    rfl
  · show (if (find_transitive_dependents t (dependentsMapOf edges)).length > 10
        then "high"
        else if (find_transitive_dependents t (dependentsMapOf edges)).length > 3
        then "medium" else "low") = "low"
    rw [hall]
    rfl

theorem c2_absent_target_report_witness :
    (get_file_impact "zzz" [Edge.mk "a.py" "b.py"]).risk_level = "low" :=
  (c2_absent_target_report [Edge.mk "a.py" "b.py"] "zzz" (by decide)).2.2.2.2

/-- C4: The risk classification of an impact report is exactly:
`high` iff the transitive-dependent count exceeds 10, `medium` iff it is
more than 3 and at most 10, and `low` iff it is at most 3 (so 11 dependents
are `high`, 4 are `medium`, 3 are `low`). -/
theorem c4_risk_thresholds (edges : List Edge) (t : String) :
    ((get_file_impact t edges).risk_level = "high" ↔
        10 < (get_file_impact t edges).dependent_count)
    ∧ ((get_file_impact t edges).risk_level = "medium" ↔
        3 < (get_file_impact t edges).dependent_count
          ∧ (get_file_impact t edges).dependent_count ≤ 10)
    ∧ ((get_file_impact t edges).risk_level = "low" ↔
        (get_file_impact t edges).dependent_count ≤ 3) := by
  have hc : (get_file_impact t edges).dependent_count =
      (find_transitive_dependents t (dependentsMapOf edges)).length := rfl
  have hr : (get_file_impact t edges).risk_level =
      (if (find_transitive_dependents t (dependentsMapOf edges)).length > 10
        then "high"
        else if (find_transitive_dependents t (dependentsMapOf edges)).length > 3
        then "medium" else "low") := rfl
  rw [hc, hr]
  split_ifs with h10 h3
  · refine ⟨⟨fun _ => h10, fun _ => rfl⟩, ?_, ?_⟩
    · exact ⟨fun hh => absurd hh (by decide), fun hh => absurd h10 (by omega)⟩
    · exact ⟨fun hh => absurd hh (by decide), fun hh => absurd h10 (by omega)⟩
  · refine ⟨?_, ⟨fun _ => by omega, fun _ => rfl⟩, ?_⟩
    · exact ⟨fun hh => absurd hh (by decide), fun hh => absurd hh (by omega)⟩
    · exact ⟨fun hh => absurd hh (by decide), fun hh => absurd h3 (by omega)⟩
  · refine ⟨?_, ?_, ⟨fun _ => by omega, fun _ => rfl⟩⟩
    · exact ⟨fun hh => absurd hh (by decide), fun hh => absurd hh (by omega)⟩
    · exact ⟨fun hh => absurd hh (by decide), fun hh => absurd hh.1 (by omega)⟩

theorem c4_risk_thresholds_witness :
    (get_file_impact "x" ([] : List Edge)).risk_level = "low" :=
  (c4_risk_thresholds [] "x").2.2.mpr (by decide)

/-- C3 (counterexample): The cache export is not the raw-import mapping:
for the project `{a.js: ["./b"], b.js: []}`, the stored `depends_on` list of
`a.js` is the resolved internal path list `["b.js"]`, not the raw import
list `["./b"]` (the source even comments "Save resolved internal deps, not
raw imports"), so the exported mapping differs from
`{file_path -> [raw_import_strings]}`. -/
theorem c3_exports_resolved_not_raw :
    (saveRows [("a.js", ["./b"]), ("b.js", [])]
        (buildEdges [("a.js", ["./b"]), ("b.js", [])])).map
          (fun r => (r.file_path, r.depends_on))
        = [("a.js", ["b.js"]), ("b.js", [])]
      ∧ [("a.js", ["b.js"]), ("b.js", [])]
        ≠ [("a.js", ["./b"]), ("b.js", ([] : List String))] :=
  ⟨by decide, by decide⟩

/-- C3 (amended): `save_to_cache` exports, per file, the *resolved
internal* dependency list (derived from the edge set), and `load_from_cache`
rebuilds edges directly from that stored mapping — keeping an entry exactly
when its target is itself a stored file path — without re-running
resolution.  The round trip still reproduces exactly the edge set of the
original build. -/
theorem c3_cache_roundtrip (deps : List (String × List String)) (e : Edge) :
    e ∈ loadEdges (saveRows deps (buildEdges deps)) ↔ e ∈ buildEdges deps := by
  rw [mem_loadEdges]
  constructor
  · rintro ⟨r, hr, hsrc, htgt, _⟩
    obtain ⟨p, hp, rfl⟩ := (mem_saveRows _ _ _).mp hr
    have hsrc' : e.source = p.1 := hsrc
    have htgt' : e.target ∈ lookupMM (dependenciesMapOf (buildEdges deps)) p.1 :=
      htgt
    rw [lookupMM_dependenciesMapOf] at htgt'
    simp only [List.mem_map, List.mem_filter] at htgt'
    obtain ⟨e', ⟨he'mem, he'src⟩, he'tgt⟩ := htgt'
    have hs : e'.source = p.1 := by simpa using he'src
    have he : e' = e := by
      cases e
      cases e'
      simp only [Edge.mk.injEq]
      simp only [Edge.source] at hs hsrc'
      simp only [Edge.target] at he'tgt
      exact ⟨by rw [hs, hsrc'], he'tgt⟩
    rw [← he]
    exact he'mem
  · intro he
    obtain ⟨hsrc, htgt⟩ := buildEdges_endpoints deps e he
    obtain ⟨p, hp, hps⟩ := List.mem_map.mp hsrc
    refine ⟨{ file_path := p.1
              depends_on := lookupMM (dependenciesMapOf (buildEdges deps)) p.1
              depended_by := ((dependenciesMapOf (buildEdges deps)).filter
                (fun q => p.1 ∈ q.2)).map Prod.fst
              imported_count := p.2.length
              dependent_count := (((dependenciesMapOf (buildEdges deps)).filter
                (fun q => p.1 ∈ q.2)).map Prod.fst).length },
        (mem_saveRows _ _ _).mpr ⟨p, hp, rfl⟩, hps.symm, ?_, ?_⟩
    · show e.target ∈ lookupMM (dependenciesMapOf (buildEdges deps)) p.1
      rw [lookupMM_dependenciesMapOf]
      simp only [List.mem_map, List.mem_filter]
      exact ⟨e, ⟨he, by simp [hps]⟩, rfl⟩
    · rw [saveRows_keys]
      exact htgt

theorem c3_cache_roundtrip_witness :
    Edge.mk "a.js" "b.js" ∈ loadEdges (saveRows [("a.js", ["./b"]), ("b.js", [])]
      (buildEdges [("a.js", ["./b"]), ("b.js", [])])) :=
  (c3_cache_roundtrip [("a.js", ["./b"]), ("b.js", [])]
    (Edge.mk "a.js" "b.js")).mpr (by decide)

/-- C5: The transitive dependent set computed by the impact query is
exactly the set of nodes backward-reachable from the target (following the
reversed edge relation), with the target itself excluded; the BFS is a total
function, so it terminates on every input, cycles included.  In particular,
for `A → B → C`, the impact of `C` has direct dependents `[B]` and
transitive dependents `{A, B}`, and in the two-cycle `A ⇄ B` the query on
`A` terminates with `{B}`. -/
theorem c5_transitive_dependents_reachability :
    (∀ (edges : List Edge) (t x : String),
        x ∈ find_transitive_dependents t (dependentsMapOf edges) ↔
          x ≠ t ∧ Relation.ReflTransGen (fun a b => Edge.mk b a ∈ edges) t x)
    ∧ (get_file_impact "C" [Edge.mk "A" "B", Edge.mk "B" "C"]).direct_dependents
        = ["B"]
    ∧ (get_file_impact "C" [Edge.mk "A" "B", Edge.mk "B" "C"]).all_dependents
        = ["A", "B"]
    ∧ (get_file_impact "A" [Edge.mk "A" "B", Edge.mk "B" "A"]).all_dependents
        = ["B"] := by
  refine ⟨?_, by decide, by decide, by decide⟩
  intro edges t x
  rw [mem_find_transitive_dependents]
  have hrel : ∀ a b, StepMM (dependentsMapOf edges) a b ↔ Edge.mk b a ∈ edges := by
    intro a b
    simp only [StepMM, lookupMM_dependentsMapOf, List.mem_map, List.mem_filter]
    constructor
    · rintro ⟨e, ⟨he, het⟩, hes⟩
      have h1 : e.target = a := by simpa using het
      have h2 : e.source = b := hes
      have he' : e = Edge.mk b a := by
        cases e
        simp only [Edge.target] at h1
        simp only [Edge.source] at h2
        rw [h1, h2]
      rw [← he']
      exact he
    · intro hmem
      exact ⟨Edge.mk b a, ⟨hmem, by simp⟩, rfl⟩
  constructor
  · rintro ⟨hne, hreach⟩
    exact ⟨hne, Relation.ReflTransGen.mono (fun a b hab => (hrel a b).mp hab) hreach⟩
  · rintro ⟨hne, hreach⟩
    exact ⟨hne, Relation.ReflTransGen.mono (fun a b hab => (hrel a b).mpr hab) hreach⟩

theorem c5_transitive_dependents_reachability_witness :
    "B" ∈ find_transitive_dependents "C"
      (dependentsMapOf [Edge.mk "A" "B", Edge.mk "B" "C"]) :=
  (c5_transitive_dependents_reachability.1 [Edge.mk "A" "B", Edge.mk "B" "C"]
    "C" "B").mpr ⟨by decide, Relation.ReflTransGen.single (by decide)⟩

/-- C6 (counterexample): The candidate order claimed by the spec — the
joined path, then *all* extension-appended candidates, then *all* index-file
candidates — disagrees observably with the code: with known paths
`{utils/index.ts, utils.js}`, the code (which interleaves `base+ext` and
`base/index+ext` per extension, `.ts` before `.js`) resolves `./utils` to
`utils/index.ts`, while the spec's order would pick `utils.js`. -/
theorem c6_candidate_order_counterexample :
    resolve_import_to_file "./utils" "a.js" ["utils/index.ts", "utils.js"]
        = some "utils/index.ts"
      ∧ specOrderResolve "./utils" "a.js" ["utils/index.ts", "utils.js"]
        = some "utils.js" :=
  ⟨by decide, by decide⟩

/-- C6 (amended): For relative imports, resolution takes the *first*
candidate present in the known-path set from the interleaved list: for each
extension of `['', '.ts', '.tsx', '.js', '.jsx', '.py']` in order, the joined
path with that extension appended and then the joined path as a directory
with `index`+extension.  The claim's concrete example still holds: `./utils`
with `utils/index.js` present (and `utils.js` absent) resolves to
`utils/index.js`. -/
theorem c6_relative_candidate_order :
    (∀ (imp src : String) (internal : List String),
        strStartsWith imp "." = true →
        resolve_import_to_file imp src internal =
          firstMatch (codeOrderCandidates (relativeBase imp src)) internal)
    ∧ resolve_import_to_file "./utils" "x.js" ["utils/index.js", "x.js"]
        = some "utils/index.js" := by
  refine ⟨?_, by decide⟩
  intro imp src internal h
  have h1 : (!strStartsWith imp "." && !strStartsWith imp "/"
      && !strContainsChar imp '/') = false := by
    rw [h]
    rfl
  unfold resolve_import_to_file codeOrderCandidates
  rw [h1, h]
  simp only [Bool.false_eq_true, if_false, if_true]
  exact tryRelExtensions_eq_firstMatch _ _ _

theorem c6_relative_candidate_order_witness :
    resolve_import_to_file "./utils" "a.js" ["utils/index.ts", "utils.js"] =
      firstMatch (codeOrderCandidates (relativeBase "./utils" "a.js"))
        ["utils/index.ts", "utils.js"] :=
  c6_relative_candidate_order.1 "./utils" "a.js" ["utils/index.ts", "utils.js"]
    (by decide)

/-- C7 (counterexample): Ties in the top-N lists are *not* broken by
lexicographic path order: with the two edges `s1 → z.py` and `s2 → a.py`,
both targets have in-degree 1, yet `z.py` is listed before `a.py` —
Python's stable sort keeps dict insertion order (first appearance in the
edge list), and `"a.py" < "z.py"` lexicographically. -/
theorem c7_tie_break_counterexample :
    (calculate_graph_metrics []
        [Edge.mk "s1" "z.py", Edge.mk "s2" "a.py"]).most_critical_files
      = [("z.py", 1), ("a.py", 1)]
      ∧ "a.py".toList < "z.py".toList :=
  ⟨by decide, by decide⟩

/-- C7 (amended): The top-N lists are ordered by descending degree
(ties keeping their insertion order, i.e. order of first appearance in the
edge list — the behaviour of Python's stable `sorted`) and are truncated to
at most 10 entries; being a pure function of the edge list, they are
reproducible across builds that produce the same edge list. -/
theorem c7_topn_sorted_desc (deps : List (String × List String))
    (edges : List Edge) :
    (calculate_graph_metrics deps edges).most_critical_files.Pairwise
        (fun a b => b.2 ≤ a.2)
    ∧ (calculate_graph_metrics deps edges).most_complex_files.Pairwise
        (fun a b => b.2 ≤ a.2)
    ∧ (calculate_graph_metrics deps edges).most_critical_files.length ≤ 10
    ∧ (calculate_graph_metrics deps edges).most_complex_files.length ≤ 10 := by
  refine ⟨?_, ?_, ?_, ?_⟩
  · exact List.Pairwise.sublist (List.take_sublist _ _) (sorted_sortByCountDesc _)
  · exact List.Pairwise.sublist (List.take_sublist _ _) (sorted_sortByCountDesc _)
  · exact List.length_take_le _ _
  · exact List.length_take_le _ _

/-- C8: `avg_dependencies` is the total edge count divided by the number
of distinct edge sources (files with at least one outgoing edge) — files
with zero resolved imports never enter the denominator — and it is `0` for
an empty edge list.  (In `ℚ`, `0 / 0 = 0`, so the first equation also covers
the empty case.) -/
theorem c8_avg_dependencies (deps : List (String × List String))
    (edges : List Edge) :
    (calculate_graph_metrics deps edges).avg_dependencies =
        (edges.length : ℚ) / ((edges.map Edge.source).toFinset.card : ℚ)
      ∧ (edges = [] → (calculate_graph_metrics deps edges).avg_dependencies = 0) := by
  constructor
  · show (if tally (edges.map Edge.source) = [] then (0 : ℚ)
        else (((tally (edges.map Edge.source)).map Prod.snd).sum : ℚ)
          / ((tally (edges.map Edge.source)).length : ℚ)) = _
    by_cases h : edges = []
    · subst h
      simp [tally]
    · have hne : tally (edges.map Edge.source) ≠ [] := by
        rw [Ne, tally_eq_nil_iff, List.map_eq_nil_iff]
        exact h
      rw [if_neg hne, tally_snd_sum, tally_length]
      simp
  · rintro rfl
    rfl

theorem c8_avg_dependencies_witness :
    (calculate_graph_metrics [] ([] : List Edge)).avg_dependencies = 0 :=
  (c8_avg_dependencies [] []).2 rfl

/-- C9: Per-file read/parse failures are contained: the node set of the
analysis loop is always exactly the discovered file list (the build — a
total function — cannot abort), a file whose oracle raises is analysed to an
empty import list and retained as an import-less node, and every readable
file of a supported language keeps its extracted imports untouched. -/
theorem c9_per_file_failures_contained
    (files : List (String × Except String (List String))) :
    ((build_file_dependencies files).map Prod.fst = files.map Prod.fst)
    ∧ (∀ fp msg, (fp, Except.error msg) ∈ files →
        (analyze_file_dependencies fp (Except.error msg)).imports = []
        ∧ (fp, ([] : List String)) ∈ build_file_dependencies files)
    ∧ (∀ fp imports, (fp, Except.ok imports) ∈ files →
        detect_language fp ∈ parserLanguages →
        (fp, imports) ∈ build_file_dependencies files) := by
  refine ⟨?_, ?_, ?_⟩
  · simp [build_file_dependencies]
  · intro fp msg hmem
    have himp : (analyze_file_dependencies fp (Except.error msg)).imports = [] := by
      unfold analyze_file_dependencies
      by_cases h : detect_language fp ∈ parserLanguages <;> simp [h]
    refine ⟨himp, ?_⟩
    have hm := List.mem_map_of_mem
      (fun p : String × Except String (List String) =>
        (p.1, (analyze_file_dependencies p.1 p.2).imports)) hmem
    simpa [build_file_dependencies, himp] using hm
  · intro fp imports hmem hlang
    have himp : (analyze_file_dependencies fp (Except.ok imports)).imports
        = imports := by
      unfold analyze_file_dependencies
      simp [hlang]
    have hm := List.mem_map_of_mem
      (fun p : String × Except String (List String) =>
        (p.1, (analyze_file_dependencies p.1 p.2).imports)) hmem
    simpa [build_file_dependencies, himp] using hm

theorem c9_per_file_failures_contained_witness :
    ("bad.py", ([] : List String)) ∈ build_file_dependencies
      [("good.py", Except.ok ["os"]), ("bad.py", Except.error "boom")] :=
  ((c9_per_file_failures_contained
      [("good.py", Except.ok ["os"]), ("bad.py", Except.error "boom")]).2.1
    "bad.py" "boom" (List.mem_cons_of_mem _ (List.mem_cons_self _ _))).2

/-- C10: `external_dependencies` is the raw import strings that are not
literally equal to any node path, truncated to at most 50 entries: its
length never exceeds 50; every entry is a raw import of some file and is not
a node path; whenever the untruncated set has at most 50 members the list is
complete; and a *resolved* relative import can still appear in it, because
the raw string differs from the resolved node path — `./utils` produces an
edge to `utils/index.js` yet is also listed as external. -/
theorem c10_external_dependencies :
    (∀ deps : List (String × List String),
        (buildGraphFromDeps deps).external_dependencies.length ≤ 50
        ∧ (∀ s ∈ (buildGraphFromDeps deps).external_dependencies,
            (∃ p ∈ deps, s ∈ p.2)
              ∧ s ∉ (buildGraphFromDeps deps).nodes.map Node.id)
        ∧ (((dedupAux (deps.flatMap Prod.snd) []).filter
              (fun s => s ∉ deps.map Prod.fst)).length ≤ 50 →
            ∀ s, (∃ p ∈ deps, s ∈ p.2) → s ∉ deps.map Prod.fst →
              s ∈ (buildGraphFromDeps deps).external_dependencies))
    ∧ (Edge.mk "a.js" "utils/index.js"
          ∈ (buildGraphFromDeps [("a.js", ["./utils"]),
              ("utils/index.js", [])]).edges
        ∧ "./utils" ∈ (buildGraphFromDeps [("a.js", ["./utils"]),
              ("utils/index.js", [])]).external_dependencies) := by
  refine ⟨?_, by decide, by decide⟩
  intro deps
  refine ⟨List.length_take_le _ _, ?_, ?_⟩
  · intro s hs
    have hs' := List.mem_of_mem_take hs
    rw [List.mem_filter] at hs'
    obtain ⟨hded, hpred⟩ := hs'
    have hraw := ((mem_dedupAux _ _ _).mp hded).1
    rw [List.mem_flatMap] at hraw
    refine ⟨hraw, ?_⟩
    have hni : s ∉ deps.map Prod.fst := by simpa using hpred
    simpa [buildGraphFromDeps, List.map_map, Function.comp] using hni
  · intro hlen s hraw hni
    show s ∈ ((dedupAux (deps.flatMap Prod.snd) []).filter
      (fun s => s ∉ deps.map Prod.fst)).take 50
    rw [List.take_of_length_le hlen, List.mem_filter]
    refine ⟨(mem_dedupAux _ _ _).mpr ⟨List.mem_flatMap.mpr hraw, by simp⟩, ?_⟩
    simpa using hni

theorem c10_external_dependencies_witness :
    (buildGraphFromDeps [("a.js", ["./utils"]),
      ("utils/index.js", [])]).external_dependencies.length ≤ 50 :=
  (c10_external_dependencies.1 [("a.js", ["./utils"]), ("utils/index.js", [])]).1

end DependencyAnalyzer
